import Mathlib

/-!
Verification of the commit-graph construction, concurrent enrichment and
layout/metrics engine of the repository (src/backend/analyzer/repo_analyzer.py
and src/backend/analyzer/graph_processor.py).

The Python code is shallowly embedded:
* `networkx.DiGraph` becomes `DiGraph`: a node list in insertion order without
  duplicates and a directed edge list without duplicates, exactly the
  observable state of an `nx.DiGraph` used by the code.
* `nx.shortest_path_length` and `nx.all_simple_paths` are external library
  calls; they are embedded by their documented contracts (shortest walk
  length / exhaustive simple-path enumeration), computed with enough fuel
  (`|V|`) to be exact, since a shortest walk and a simple path each visit at
  most `|V|` nodes.
* Python floats are embedded as `Rat`; every numeric equality checked by the
  claims is exact in both representations.
* Network responses (GitHub commit list, commit detail, summarizer) are
  supplied as explicit inputs: the commit-list fetch as an
  `Except String (List RawCommit)` and the per-commit responses as an
  `Oracle` of deterministic response functions, so that one analysis run is a
  pure function of those inputs.
* `asyncio.gather` over per-commit tasks is embedded as a fold over the
  commit list; each task mutates only its own SHA's node, and the theorems
  establish exactly this isolation (a node's final state depends only on its
  own commit's responses).
-/

set_option maxRecDepth 10000

namespace TreeSnow

/-! ### Association-list helpers (Python dict observable behaviour) -/

/-- Lookup of the first binding of key `k`. -/
def alook {κ β : Type} [DecidableEq κ] (k : κ) : List (κ × β) → Option β
  | [] => none
  | (k', v) :: rest => if k = k' then some v else alook k rest

/-- Update every binding of key `k` by `f` (a keyed in-place mutation). -/
def aupdate {κ β : Type} [DecidableEq κ] (k : κ) (f : β → β) :
    List (κ × β) → List (κ × β) :=
  fun l => l.map (fun p => if p.1 = k then (p.1, f p.2) else p)

/-! ### Directed graphs: embedding of `networkx.DiGraph` topology -/

/-- A directed graph: nodes in insertion order, directed edges. -/
structure DiGraph (α : Type) where
  nodes : List α
  edges : List (α × α)
deriving DecidableEq

namespace DiGraph

variable {α : Type} [DecidableEq α]

def empty : DiGraph α := ⟨[], []⟩

/-- In-degree of `v`: number of edges whose target is `v`. -/
def inDegree (g : DiGraph α) (v : α) : Nat :=
  g.edges.countP (fun e => decide (e.2 = v))

/-- Out-degree of `v`: number of edges whose source is `v`. -/
def outDegree (g : DiGraph α) (v : α) : Nat :=
  g.edges.countP (fun e => decide (e.1 = v))

/-- Successors of `u` in edge-insertion order. -/
def succs (g : DiGraph α) (u : α) : List α :=
  (g.edges.filter (fun e => decide (e.1 = u))).map (·.2)

end DiGraph

/-! ### Shortest path length (`nx.shortest_path_length`, BFS contract)

`splAux g v fuel frontier` returns the least number of steps after which `v`
appears when repeatedly expanding `frontier` along edges, i.e. the length of a
shortest walk from the frontier to `v`.  With `fuel = |V|` and frontier
`[u]` this is exactly the shortest-path distance from `u` to `v` (`none` when
`v` is unreachable), because a shortest walk is a simple path and therefore
has at most `|V| - 1` edges. -/

def splAux {α : Type} [DecidableEq α] (g : DiGraph α) (v : α) :
    Nat → List α → Option Nat
  | 0, frontier => if v ∈ frontier then some 0 else none
  | fuel + 1, frontier =>
    if v ∈ frontier then some 0
    else (splAux g v fuel (frontier.flatMap g.succs)).map (· + 1)

/-- Embedding of `nx.shortest_path_length(g, u, v)`; `none` embeds the
`NetworkXNoPath` exception. -/
def shortestPathLength {α : Type} [DecidableEq α] (g : DiGraph α) (u v : α) :
    Option Nat :=
  splAux g v g.nodes.length [u]

/-! ### Layout (graph_processor._calculate_layout) -/

/-- Nodes with no incoming edges (`roots` of line 77). -/
def rootNodes {α : Type} [DecidableEq α] (g : DiGraph α) : List α :=
  g.nodes.filter (fun v => decide (g.inDegree v = 0))

/-- `min(self.graph.nodes(), key=lambda n: self.graph.in_degree(n))`:
Python's `min` keeps the first element that attains the minimum. -/
def argminInFirst {α : Type} [DecidableEq α] (g : DiGraph α) : Option α :=
  g.nodes.foldl
    (fun best v =>
      match best with
      | none => some v
      | some b => if g.inDegree v < g.inDegree b then some v else some b)
    none

/-- Roots used for layout: in-degree-0 nodes, or the first node of minimum
in-degree if no in-degree-0 node exists (lines 77-80). -/
def layoutRoots {α : Type} [DecidableEq α] (g : DiGraph α) : List α :=
  match rootNodes g with
  | [] =>
    match argminInFirst g with
    | some m => [m]
    | none => []
  | r => r

/-- Level of a node: maximum over all layout roots of the shortest-path
distance from that root, unreachable roots contributing nothing, starting
from 0 (lines 83-92). -/
def levelOf {α : Type} [DecidableEq α] (g : DiGraph α) (v : α) : Nat :=
  (layoutRoots g).foldl
    (fun acc r =>
      match shortestPathLength g r v with
      | some d => max acc d
      | none => acc)
    0

/-- The `levels` dictionary filled by the loop of lines 84-92. -/
def levelsList {α : Type} [DecidableEq α] (g : DiGraph α) : List (α × Nat) :=
  g.nodes.map (fun v => (v, levelOf g v))

/-- A 3-D position. -/
structure Pos3 where
  x : Rat
  y : Rat
  z : Rat
deriving DecidableEq

/-- The 3-D layout dictionary of lines 94-112.  The two in-plane coordinates
come from `nx.multipartite_layout`, an external deterministic placement that
no claim constrains numerically; it is supplied as the function `plane`.
The z coordinate is `level * 10` (line 108). -/
def calculateLayout {α : Type} [DecidableEq α] (g : DiGraph α)
    (plane : α → Rat × Rat) : List (α × Pos3) :=
  (levelsList g).map
    (fun p => (p.1, ⟨(plane p.1).1, (plane p.1).2, (p.2 : Rat) * 10⟩))

/-! ### Edge control points (graph_processor._calculate_control_point) -/

/-- Lines 200-211: componentwise midpoint, then `offset = 20` added to x. -/
def controlPoint (s t : Pos3) : Pos3 :=
  ⟨(s.x + t.x) / 2 + 20, (s.y + t.y) / 2, (s.z + t.z) / 2⟩

/-- Spec-side definition: the exact componentwise midpoint of two positions
("control point = midpoint of source and target positions on x/y/z"). -/
def midpoint3 (s t : Pos3) : Pos3 :=
  ⟨(s.x + t.x) / 2, (s.y + t.y) / 2, (s.z + t.z) / 2⟩

/-! ### Simple paths (`nx.all_simple_paths` contract)

`simplePathsAux g t fuel u visited` enumerates every simple path from `u` to
`t` whose nodes avoid `visited` (which already contains `u`); `fuel` bounds
the node count of a path, and `fuel = |V|` is exhaustive because a simple
path repeats no node.  A path from a node to itself is the single-node path
`[t]`. -/

def simplePathsAux {α : Type} [DecidableEq α] (g : DiGraph α) (t : α) :
    Nat → α → List α → List (List α)
  | 0, _, _ => []
  | fuel + 1, u, visited =>
    if u = t then [[t]]
    else
      ((g.succs u).filter (fun w => decide (w ∉ visited))).flatMap
        (fun w => (simplePathsAux g t fuel w (w :: visited)).map (fun p => u :: p))

/-- Embedding of `list(nx.all_simple_paths(g, s, t))`. -/
def allSimplePaths {α : Type} [DecidableEq α] (g : DiGraph α) (s t : α) :
    List (List α) :=
  simplePathsAux g t g.nodes.length s [s]

/-! ### Metrics (graph_processor._calculate_metrics) -/

/-- Per-node attribute bag of the analyzer's graph; every key may be absent
(an `nx` node attribute dictionary).  The first four keys are written at
graph construction, the last four by enrichment. -/
structure NodeAttrs where
  message : Option String := none
  author : Option String := none
  date : Option String := none
  is_initial : Option Bool := none
  files_changed : Option (List String) := none
  files_count : Option Nat := none
  analysis : Option String := none
  code : Option String := none
deriving DecidableEq

/-- An empty attribute dictionary. -/
def emptyAttrs : NodeAttrs :=
  ⟨none, none, none, none, none, none, none, none⟩

/-- The metrics snapshot returned by `_calculate_metrics`. -/
structure Metrics where
  total_commits : Nat
  max_depth : Nat
  branching_factor : Rat
  leaf_commits : Nat
  merge_commits : Nat
  average_branch_length : Rat
  commit_frequency : List (String × Nat)
deriving DecidableEq

/-- Count of nodes with in-degree `> 1` (line 234). -/
def mergeCount {α : Type} [DecidableEq α] (g : DiGraph α) : Nat :=
  g.nodes.countP (fun v => decide (g.inDegree v > 1))

/-- Count of nodes with out-degree `0` (line 235). -/
def leafCount {α : Type} [DecidableEq α] (g : DiGraph α) : Nat :=
  g.nodes.countP (fun v => decide (g.outDegree v = 0))

/-- `dict(node → distance)` values of `nx.shortest_path_length(g, source=r)`:
the shortest-path distances to every reachable node (line 242). -/
def depthsFrom {α : Type} [DecidableEq α] (g : DiGraph α) (r : α) : List Nat :=
  g.nodes.filterMap (fun v => shortestPathLength g r v)

/-- Lines 238-246: maximum over in-degree-0 roots of the largest
shortest-path distance from that root. -/
def maxDepth {α : Type} [DecidableEq α] (g : DiGraph α) : Nat :=
  (rootNodes g).foldl (fun acc r => max acc ((depthsFrom g r).foldl max 0)) 0

/-- `_calculate_all_branch_paths` (lines 280-292): all simple paths from
every in-degree-0 root to every out-degree-0 leaf, roots outer, leaves
inner. -/
def branchPaths {α : Type} [DecidableEq α] (g : DiGraph α) : List (List α) :=
  (rootNodes g).flatMap (fun r => (leafCommitsList g).flatMap (fun l => allSimplePaths g r l))
where
  leafCommitsList (g : DiGraph α) : List α :=
    g.nodes.filter (fun v => decide (g.outDegree v = 0))

/-- `defaultdict(int)` frequency bump; a Python dict keeps first-insertion
key order. -/
def bump (a : String) : List (String × Nat) → List (String × Nat)
  | [] => [(a, 1)]
  | (k, n) :: rest => if k = a then (k, n + 1) :: rest else (k, n) :: bump a rest

/-- Lines 253-256: commit count per author, default author `"Unknown"`. -/
def commitFrequency {α : Type} [DecidableEq α] (g : DiGraph α)
    (attr : α → NodeAttrs) : List (String × Nat) :=
  g.nodes.foldl (fun acc v => bump (((attr v).author).getD "Unknown") acc) []

/-- `_calculate_metrics` (lines 213-266).  Python float division is embedded
as exact division in `Rat`. -/
def calculateMetrics {α : Type} [DecidableEq α] (g : DiGraph α)
    (attr : α → NodeAttrs) : Metrics :=
  if g.nodes = [] then ⟨0, 0, 0, 0, 0, 0, []⟩
  else
    let total := g.nodes.length
    let merge := mergeCount g
    let paths := branchPaths g
    ⟨total, maxDepth g,
     (total : Rat) / ((max 1 (total - merge) : Nat) : Rat),
     leafCount g, merge,
     ((paths.map List.length).sum : Rat) / ((max paths.length 1 : Nat) : Rat),
     commitFrequency g attr⟩

/-! ### Node and edge export (graph_processor._process_nodes/_process_edges) -/

/-- The `data` sub-record of an exported node (lines 135-145). -/
structure VisNodeData where
  message : String
  author : String
  date : String
  files_count : Nat
  is_initial : Bool
  is_merge : Bool
  files_changed : List String
  analysis : String
deriving DecidableEq

structure VisNode (α : Type) where
  id : α
  position : Pos3
  data : VisNodeData
deriving DecidableEq

structure VisEdge (α : Type) where
  source : α
  target : α
  ctrlPoint : Pos3
  is_merge : Bool
deriving DecidableEq

structure VisResult (α : Type) where
  nodes : List (VisNode α)
  edges : List (VisEdge α)
  metrics : Metrics
deriving DecidableEq

/-- `_process_nodes` (lines 118-149), with the `node_data.get(..., default)`
defaults of the source.  The layout dictionary access `self.layout[node]`
always succeeds because the layout was computed over the same node list. -/
def processNodes {α : Type} [DecidableEq α] (g : DiGraph α)
    (attr : α → NodeAttrs) (layout : List (α × Pos3)) : List (VisNode α) :=
  g.nodes.map (fun v =>
    let a := attr v
    ⟨v, (alook v layout).getD ⟨0, 0, 0⟩,
     ⟨a.message.getD "", a.author.getD "", a.date.getD "", a.files_count.getD 0,
      a.is_initial.getD false, decide (g.inDegree v > 1),
      a.files_changed.getD [], a.analysis.getD ""⟩⟩)

/-- `_process_edges` (lines 155-186). -/
def processEdges {α : Type} [DecidableEq α] (g : DiGraph α)
    (layout : List (α × Pos3)) : List (VisEdge α) :=
  g.edges.map (fun e =>
    ⟨e.1, e.2,
     controlPoint ((alook e.1 layout).getD ⟨0, 0, 0⟩)
       ((alook e.2 layout).getD ⟨0, 0, 0⟩),
     decide (g.inDegree e.2 > 1)⟩)

/-- `process_for_visualization` (lines 24-66): empty graph short-circuits to
empty collections plus the zero metrics snapshot; otherwise layout, node and
edge export, and metrics. -/
def processForVisualization {α : Type} [DecidableEq α] (g : DiGraph α)
    (attr : α → NodeAttrs) (plane : α → Rat × Rat) : VisResult α :=
  if g.nodes.length = 0 then ⟨[], [], calculateMetrics g attr⟩
  else
    let layout := calculateLayout g plane
    ⟨processNodes g attr layout, processEdges g layout, calculateMetrics g attr⟩

/-! ### Repository analyzer (repo_analyzer.RepositoryAnalyzer)

A raw commit record as consumed from the commit-list response
(`{sha, commit:{message, author:{name, date}}, parents:[{sha}], url}`).
The fields whose absence the spec calls a malformed record (`sha`,
`commit.author.name`) are `Option`s; a dictionary access on an absent field
embeds as the `Except.error` that Python's `KeyError` raises. -/
structure RawCommit where
  sha : Option String
  message : String
  authorName : Option String
  date : String
  parents : List String
  url : String
deriving DecidableEq

/-- A `KeyError`-raising dictionary access. -/
def req {β : Type} (o : Option β) : Except String β :=
  match o with
  | some v => Except.ok v
  | none => Except.error "KeyError"

/-- The analyzer's graph: `nx.DiGraph` topology plus the per-node attribute
dictionaries, keyed by SHA. -/
structure GGraph where
  g : DiGraph String
  attrs : List (String × NodeAttrs)
deriving DecidableEq

namespace GGraph

def empty : GGraph := ⟨DiGraph.empty, []⟩

/-- `add_node(sha, message=…, author=…, date=…, is_initial=…)` (lines 83-88):
adds the node if missing and sets exactly those four attribute keys. -/
def addCommitNode (st : GGraph) (sha msg author date : String)
    (isInit : Bool) : GGraph :=
  let setB := fun (a : NodeAttrs) =>
    { a with message := some msg, author := some author,
             date := some date, is_initial := some isInit }
  if sha ∈ st.g.nodes then ⟨st.g, aupdate sha setB st.attrs⟩
  else ⟨⟨st.g.nodes ++ [sha], st.g.edges⟩, st.attrs ++ [(sha, setB emptyAttrs)]⟩

/-- `nx`'s implicit node insertion: a node referenced by an edge is added
with an empty attribute dictionary if missing. -/
def addNodeKey (st : GGraph) (k : String) : GGraph :=
  if k ∈ st.g.nodes then st
  else ⟨⟨st.g.nodes ++ [k], st.g.edges⟩, st.attrs ++ [(k, emptyAttrs)]⟩

/-- `add_edge(u, v)` (line 93): `nx` auto-adds missing endpoints with empty
attribute dictionaries and ignores a duplicate edge. -/
def addEdgeS (st : GGraph) (u v : String) : GGraph :=
  let st' := (st.addNodeKey u).addNodeKey v
  if (u, v) ∈ st'.g.edges then st'
  else ⟨⟨st'.g.nodes, st'.g.edges ++ [(u, v)]⟩, st'.attrs⟩

end GGraph

/-- The internal consistency of the analyzer's graph state: a SHA is a node
exactly when it owns an attribute dictionary.  `nx` maintains this by
construction; here it is established for every state reachable by the
builder. -/
def KeyInv (st : GGraph) : Prop :=
  ∀ k : String, k ∈ st.g.nodes ↔ (alook k st.attrs).isSome = true

/-- The SHAs of the fetched page (`[c['sha'] for c in commits]`, line 92;
records without a SHA make the whole construction raise before this list is
ever consulted, so skipping them here is observationally equivalent). -/
def pageShas (commits : List RawCommit) : List String :=
  commits.filterMap (·.sha)

/-- One iteration of the graph-construction loop (lines 78-93): read the
required fields, add the node with `is_initial = (parents empty)`, then add
one edge per parent SHA that is present in the fetched page. -/
def buildStep (shas : List String) (st : GGraph) (c : RawCommit) :
    Except String GGraph := do
  let sha ← req c.sha
  let author ← req c.authorName
  let st1 := st.addCommitNode sha c.message author c.date c.parents.isEmpty
  return c.parents.foldl
    (fun st2 p => if p ∈ shas then st2.addEdgeS p sha else st2) st1

/-- The construction loop over the fetched page, starting from the freshly
reset empty graph (lines 67, 78-93). -/
def buildGraph (commits : List RawCommit) : Except String GGraph :=
  commits.foldlM (buildStep (pageShas commits)) GGraph.empty

/-! ### Enrichment (lines 115-164) -/

/-- One entry of the detail response's `files` list. -/
structure FileEntry where
  filename : String
  patch : Option String
deriving DecidableEq

/-- A commit-detail response: HTTP success flag and the optional `files`
key of the JSON body. -/
structure DetailResp where
  ok : Bool
  files : Option (List FileEntry)
deriving DecidableEq

/-- A summarizer response: HTTP success flag and the message content
(`result['choices'][0]['message']['content']`). -/
structure GptResp where
  ok : Bool
  content : String
deriving DecidableEq

/-- The deterministic network environment of one run: the commit-detail
response per URL (both detail fetches of a commit hit the same URL) and the
summarizer response per commit SHA. -/
structure Oracle where
  detail : String → DetailResp
  gpt : String → GptResp

/-- Python string slicing `s[:n]`. -/
def strTake (s : String) (n : Nat) : String := String.mk (s.toList.take n)

/-- `_fetch_commit_code` (lines 115-123): sentinel `"No code available"` on a
non-success status; otherwise the first file's patch truncated to 500
characters, or `"No code changes available"` when the `files` key is falsy
or the first file has no patch. -/
def fetchCommitCode (d : DetailResp) : String :=
  if d.ok = false then "No code available"
  else
    match d.files with
    | some (f :: _) => strTake (f.patch.getD "No code changes available") 500
    | _ => "No code changes available"

/-- `_analyze_with_gpt4` (lines 166-188) as observed through its result: the
sentinel `"Analysis failed"` on a non-success status, otherwise the response
content.  (The prompt built from the file list and patches capped at 1000
characters only influences which `content` the oracle returns.) -/
def analyzeWithGpt (r : GptResp) : String :=
  if r.ok then r.content else "Analysis failed"

/-- A JSON scalar of a commit-summary record. -/
inductive JVal
  | s (v : String)
  | n (v : Nat)
deriving DecidableEq

/-- The commit-summary dictionary literal of lines 157-163, in key order.
Note the actual key `"files edited"` (with a space). -/
def summaryRecord (author code explanation sha : String)
    (filesEdited : Nat) : List (String × JVal) :=
  [("author", JVal.s author), ("code", JVal.s code),
   ("explanation", JVal.s explanation), ("sha", JVal.s sha),
   ("files edited", JVal.n filesEdited)]

/-- The attribute update a successful enrichment applies to its own node
(lines 149-154). -/
def enrichFields (o : Oracle) (c : RawCommit) (a : NodeAttrs) : NodeAttrs :=
  let d := o.detail c.url
  let files := d.files.getD []
  { a with
    files_changed := some (files.map (·.filename)),
    files_count := some files.length,
    analysis := some (if files.isEmpty then "No changes"
                      else analyzeWithGpt (o.gpt (c.sha.getD ""))),
    code := some (fetchCommitCode d) }

/-- `_analyze_single_commit` (lines 130-164): a non-success detail fetch
returns immediately, leaving the node and the summary list untouched;
otherwise the node's four enrichment attributes are written and one summary
record is appended. -/
def analyzeSingleCommit (o : Oracle) (c : RawCommit)
    (st : GGraph × List (List (String × JVal))) :
    GGraph × List (List (String × JVal)) :=
  let sha := c.sha.getD ""
  let d := o.detail c.url
  if d.ok = false then st
  else
    let files := d.files.getD []
    let codeSample := fetchCommitCode d
    let analysis := if files.isEmpty then "No changes"
                    else analyzeWithGpt (o.gpt sha)
    (⟨st.1.g, aupdate sha (enrichFields o c) st.1.attrs⟩,
     st.2 ++ [summaryRecord (c.authorName.getD "") codeSample analysis sha
                files.length])

/-- `_analyze_commits` (lines 125-128): `asyncio.gather` over one task per
commit.  Each task touches only its own SHA's node, so the final state is
the fold of the per-commit updates (the isolation theorems below show each
node's result is independent of every other task). -/
def analyzeCommits (o : Oracle) (commits : List RawCommit) (g : GGraph) :
    GGraph × List (List (String × JVal)) :=
  commits.foldl (fun st c => analyzeSingleCommit o c st) (g, [])

/-! ### Main-author selection and the top-level run (lines 60-113) -/

/-- The `author_counts` dictionary of lines 102-105 (first-insertion key
order). -/
def authorCounts (commits : List RawCommit) : List (String × Nat) :=
  commits.foldl (fun acc c => bump (c.authorName.getD "") acc) []

/-- `max(author_counts.items(), key=lambda x: x[1])[0]`: Python's `max`
keeps the first item attaining the maximum. -/
def argmaxFirst : List (String × Nat) → Option String
  | [] => none
  | (a, n) :: rest =>
    some ((rest.foldl (fun (b : String × Nat) p => if p.2 > b.2 then p else b)
      (a, n)).1)

def mainAuthor (commits : List RawCommit) : String :=
  (argmaxFirst (authorCounts commits)).getD ""

/-- What `analyze_repository` hands back: the empty-input path returns the
pair `(graph, [])` (line 75), the success path returns the graph alone
(line 109), and an escaped exception would propagate (`raised`) — but the
`except` handler of lines 111-113 converts every exception into a bare
fresh empty graph, so `raised` is never produced. -/
inductive AnalyzeOutcome
  | pair (g : GGraph) (summaries : List (List (String × JVal)))
  | graphOnly (g : GGraph)
  | raised (msg : String)
deriving DecidableEq

def AnalyzeOutcome.isRaised : AnalyzeOutcome → Bool
  | .raised _ => true
  | _ => false

/-- The observable result of one `analyze_repository` call: its return value
and the file written by `_save_commit_summaries` (name and contents), if
any. -/
structure RunResult where
  outcome : AnalyzeOutcome
  saved : Option (String × List (List (String × JVal)))
deriving DecidableEq

/-- `analyze_repository` (lines 60-113) as a function of the commit-list
fetch result and the per-commit network oracle.  Every exception path (a
failed list fetch, a malformed record) is caught by the handler of lines
111-113 and becomes a bare fresh empty graph with nothing saved.  After a
successful build the author-count loop re-reads `commit.author.name`, which
the build already validated, so `getD` never supplies its default there. -/
def analyzeRepository (repoName : String)
    (fetch : Except String (List RawCommit)) (o : Oracle) : RunResult :=
  match fetch with
  | Except.error _ => ⟨.graphOnly GGraph.empty, none⟩
  | Except.ok commits =>
    if commits.isEmpty then ⟨.pair GGraph.empty [], none⟩
    else
      match buildGraph commits with
      | Except.error _ => ⟨.graphOnly GGraph.empty, none⟩
      | Except.ok g =>
        let res := analyzeCommits o commits g
        ⟨.graphOnly res.1,
         some (repoName ++ "_" ++ mainAuthor commits ++ ".json", res.2)⟩

/-! ### Concrete instances used by witnesses and counterexamples -/

/-- A linear chain of `n` commits: node `i` is the `i`-th commit, each
commit `i + 1` has the single parent `i`. -/
def chainGraph (n : Nat) : DiGraph Nat :=
  ⟨List.range n, (List.range (n - 1)).map (fun i => (i, i + 1))⟩

/-- Two disjoint root-to-leaf chains of node counts 3 and 5. -/
def twoChains : DiGraph Nat :=
  ⟨[0, 1, 2, 3, 4, 5, 6, 7], [(0, 1), (1, 2), (3, 4), (4, 5), (5, 6), (6, 7)]⟩

/-- A graph with two roots `a`, `b` where node `c` is reachable from both at
different distances (1 from `a`, 2 from `b`). -/
def wgC3 : DiGraph String :=
  ⟨["a", "b", "c", "d"], [("a", "c"), ("b", "d"), ("d", "c")]⟩

/-- A fetched commit with no parents, detail URL `"u1"`. -/
def ca : RawCommit := ⟨some "a1", "m1", some "alice", "2024-01-01", [], "u1"⟩

/-- A fetched commit whose parent is `ca`, detail URL `"u2"`. -/
def cb : RawCommit := ⟨some "b1", "m2", some "bob", "2024-01-02", ["a1"], "u2"⟩

/-- A network environment in which `ca`'s detail fetch fails (non-success
status) while `cb`'s succeeds with one changed file. -/
def oC1 : Oracle :=
  ⟨fun u => if u = "u2" then ⟨true, some [⟨"f.py", some "patchtext"⟩]⟩
            else ⟨false, none⟩,
   fun _ => ⟨true, "summary b"⟩⟩

/-- The graph built from the page `[ca, cb]`. -/
def gC1 : GGraph := (buildGraph [ca, cb]).toOption.getD GGraph.empty

/-- A malformed record: the author name is missing. -/
def cmal : RawCommit := ⟨some "a1", "m", none, "d", [], "u"⟩

/-- A network environment in which every request fails. -/
def oTriv : Oracle := ⟨fun _ => ⟨false, none⟩, fun _ => ⟨false, ""⟩⟩

/-- Commits by `alice`, `bob`, `bob`: `bob` is the most frequent author. -/
def c9a : RawCommit := ⟨some "s1", "m", some "alice", "d", [], "v1"⟩

def c9b : RawCommit := ⟨some "s2", "m", some "bob", "d", ["s1"], "v2"⟩

def c9c : RawCommit := ⟨some "s3", "m", some "bob", "d", ["s2"], "v3"⟩

/-- A network environment in which every fetch succeeds. -/
def o9 : Oracle :=
  ⟨fun _ => ⟨true, some [⟨"x.py", some "p"⟩]⟩, fun _ => ⟨true, "expl"⟩⟩

/-- A commit whose only parent lies outside the fetched page. -/
def c8orphan : RawCommit :=
  ⟨some "k1", "m", some "carol", "d", ["outside"], "w1"⟩

/-- A second commit for the `c8orphan` page, child of `c8orphan`. -/
def c8child : RawCommit := ⟨some "k2", "m", some "carol", "d", ["k1"], "w2"⟩

/-- The graph built from the page `[c8orphan, c8child]`. -/
def g8 : GGraph :=
  (buildGraph [c8orphan, c8child]).toOption.getD GGraph.empty

/-! ## Helper lemmas -/

theorem alook_map_self {α β : Type} [DecidableEq α] {l : List α} (f : α → β)
    {k : α} (h : k ∈ l) :
    alook k (l.map (fun v => (v, f v))) = some (f k) := by
  induction l with
  | nil => cases h
  | cons a t ih =>
    rcases List.mem_cons.mp h with rfl | ht
    · simp [alook]
    · by_cases hk : k = a
      · subst hk; simp [alook]
      · simpa [alook, hk] using ih ht

theorem calculateLayout_eq_map {α : Type} [DecidableEq α] (g : DiGraph α)
    (plane : α → Rat × Rat) :
    calculateLayout g plane =
      g.nodes.map (fun v =>
        (v, (⟨(plane v).1, (plane v).2, (levelOf g v : Rat) * 10⟩ : Pos3))) := by
  simp only [calculateLayout, levelsList, List.map_map]
  rfl

theorem range_filter_eq (m k : Nat) :
    (List.range m).filter (fun i => decide (i = k)) =
      if k < m then [k] else [] := by
  induction m with
  | zero => simp
  | succ m ih =>
    rw [List.range_succ, List.filter_append, ih]
    by_cases h : k < m
    · have : ¬ m = k := by omega
      simp [h, this, Nat.lt_succ_of_lt h]
    · by_cases h2 : k = m
      · subst h2
        simp [h, Nat.lt_succ_self]
      · have : ¬ m = k := fun e => h2 e.symm
        have h3 : ¬ k < m + 1 := by omega
        simp [h, h3, this]

theorem range_countP_succ_eq (m v : Nat) :
    (List.range m).countP (fun i => decide (i + 1 = v)) =
      if 1 ≤ v ∧ v - 1 < m then 1 else 0 := by
  induction m with
  | zero => simp
  | succ m ih =>
    rw [List.range_succ, List.countP_append, ih]
    have hm : List.countP (fun i => decide (i + 1 = v)) [m] =
        if m + 1 = v then 1 else 0 := by
      by_cases h : m + 1 = v <;> simp [List.countP_cons, h]
    rw [hm]
    split_ifs <;> omega

theorem chain_succs (n u : Nat) :
    (chainGraph n).succs u = if u + 1 < n then [u + 1] else [] := by
  show (((List.range (n - 1)).map (fun i => (i, i + 1))).filter
      (fun e => decide (e.1 = u))).map (·.2) = _
  rw [List.filter_map]
  have hc : ((fun e : Nat × Nat => decide (e.1 = u)) ∘ fun i => (i, i + 1)) =
      fun i => decide (i = u) := rfl
  rw [hc, range_filter_eq]
  by_cases h : u < n - 1
  · have h2 : u + 1 < n := by omega
    simp [h, h2]
  · have h2 : ¬ u + 1 < n := by omega
    simp [h, h2]

theorem chain_inDegree (n v : Nat) :
    (chainGraph n).inDegree v = if 1 ≤ v ∧ v < n then 1 else 0 := by
  show ((List.range (n - 1)).map (fun i => (i, i + 1))).countP
      (fun e => decide (e.2 = v)) = _
  rw [List.countP_map]
  have hc : ((fun e : Nat × Nat => decide (e.2 = v)) ∘ fun i => (i, i + 1)) =
      fun i => decide (i + 1 = v) := rfl
  rw [hc, range_countP_succ_eq]
  by_cases h : 1 ≤ v ∧ v - 1 < n - 1
  · have h2 : 1 ≤ v ∧ v < n := by omega
    simp [h, h2]
  · have h2 : ¬ (1 ≤ v ∧ v < n) := by omega
    simp [h, h2]

theorem chain_rootNodes (n : Nat) (hn : 1 ≤ n) :
    rootNodes (chainGraph n) = [0] := by
  have hcong : (chainGraph n).nodes.filter
      (fun v => decide ((chainGraph n).inDegree v = 0)) =
      (chainGraph n).nodes.filter (fun v => decide (v = 0)) := by
    apply List.filter_congr
    intro v hv
    have hv' : v < n := List.mem_range.mp hv
    rw [chain_inDegree]
    by_cases h : v = 0
    · subst h; simp
    · have h1 : 1 ≤ v ∧ v < n := by omega
      simp [h1, h]
  show (chainGraph n).nodes.filter
      (fun v => decide ((chainGraph n).inDegree v = 0)) = [0]
  rw [hcong]
  show (List.range n).filter (fun v => decide (v = 0)) = [0]
  rw [range_filter_eq, if_pos (by omega : 0 < n)]

theorem chain_layoutRoots (n : Nat) (hn : 1 ≤ n) :
    layoutRoots (chainGraph n) = [0] := by
  unfold layoutRoots
  rw [chain_rootNodes n hn]

theorem chain_splAux (n : Nat) :
    ∀ (fuel u v : Nat), u ≤ v → v < n → v - u ≤ fuel →
      splAux (chainGraph n) v fuel [u] = some (v - u) := by
  intro fuel
  induction fuel with
  | zero =>
    intro u v h1 h2 h3
    have : v = u := by omega
    subst this
    simp [splAux]
  | succ f ih =>
    intro u v h1 h2 h3
    by_cases he : v = u
    · subst he; simp [splAux]
    · have hu : u < v := by omega
      have hnot : v ∉ [u] := by simp; omega
      rw [splAux, if_neg hnot]
      have hexp : ([u].flatMap (chainGraph n).succs) = [u + 1] := by
        rw [List.flatMap_cons, List.flatMap_nil, List.append_nil, chain_succs,
          if_pos (by omega : u + 1 < n)]
      rw [hexp, ih (u + 1) v (by omega) h2 (by omega)]
      have harith : v - (u + 1) + 1 = v - u := by omega
      simp [harith]

theorem chain_spl (n v : Nat) (hv : v < n) :
    shortestPathLength (chainGraph n) 0 v = some v := by
  have hlen : (chainGraph n).nodes.length = n := by
    simp [chainGraph]
  unfold shortestPathLength
  rw [hlen]
  have := chain_splAux n n 0 v (Nat.zero_le v) hv (by omega)
  simpa using this

theorem chain_level (n v : Nat) (hn : 1 ≤ n) (hv : v < n) :
    levelOf (chainGraph n) v = v := by
  unfold levelOf
  rw [chain_layoutRoots n hn]
  simp [chain_spl n v hv]

theorem filterMap_id_of_some {l : List Nat} {f : Nat → Option Nat}
    (h : ∀ a ∈ l, f a = some a) : l.filterMap f = l := by
  induction l with
  | nil => rfl
  | cons a t ih =>
    rw [List.filterMap_cons, h a (List.mem_cons_self a t)]
    rw [ih (fun b hb => h b (List.mem_cons_of_mem a hb))]

theorem foldl_max_range (n : Nat) : (List.range n).foldl max 0 = n - 1 := by
  induction n with
  | zero => rfl
  | succ m ih =>
    rw [List.range_succ, List.foldl_append, ih]
    show max (m - 1) m = m + 1 - 1
    omega

theorem chain_maxDepth (n : Nat) (hn : 1 ≤ n) :
    maxDepth (chainGraph n) = n - 1 := by
  unfold maxDepth
  rw [chain_rootNodes n hn]
  have hd : depthsFrom (chainGraph n) 0 = List.range n := by
    unfold depthsFrom
    have hnodes : (chainGraph n).nodes = List.range n := rfl
    rw [hnodes]
    exact filterMap_id_of_some
      (fun v hv => chain_spl n v (List.mem_range.mp hv))
  simp [hd, foldl_max_range]

theorem chain_mergeCount (n : Nat) : mergeCount (chainGraph n) = 0 := by
  unfold mergeCount
  apply List.countP_eq_zero.mpr
  intro v _
  rw [chain_inDegree]
  by_cases h : 1 ≤ v ∧ v < n <;> simp [h]

/-! ## Claim theorems -/

/-- C6: for every edge, the control point is the componentwise midpoint of
the endpoint positions with a fixed lateral offset of 20 added to x only, a
pure function of the two endpoint positions; source `(0,0,0)` and target
`(10,0,10)` give `(25,0,5)`. -/
theorem claim_C6_control_point :
    (∀ s t : Pos3,
        controlPoint s t =
          ⟨(midpoint3 s t).x + 20, (midpoint3 s t).y, (midpoint3 s t).z⟩)
    ∧ controlPoint ⟨0, 0, 0⟩ ⟨10, 0, 10⟩ = ⟨25, 0, 5⟩ := by
  refine ⟨fun s t => rfl, ?_⟩
  show Pos3.mk ((0 + 10) / 2 + 20) ((0 + 0) / 2) ((0 + 10) / 2) = ⟨25, 0, 5⟩
  norm_num

/-- C7: for the empty graph, the engine returns empty node and edge lists
and a metrics snapshot whose numeric fields are all 0 with an empty
frequency mapping, raising no error. -/
theorem claim_C7_empty_graph (attr : String → NodeAttrs)
    (plane : String → Rat × Rat) :
    processForVisualization DiGraph.empty attr plane =
      ⟨[], [], ⟨0, 0, 0, 0, 0, 0, []⟩⟩ := rfl

/-- C4: `average_branch_length` is the mean node-count over all simple paths
from every in-degree-0 root to every out-degree-0 leaf, with the denominator
floored at 1 (a graph with no such paths yields 0); two disjoint
root-to-leaf chains of node counts 3 and 5 give 4. -/
theorem claim_C4_average_branch_length :
    (∀ (g : DiGraph String) (attr : String → NodeAttrs),
        (calculateMetrics g attr).average_branch_length =
          (((branchPaths g).map List.length).sum : Rat) /
            ((max (branchPaths g).length 1 : Nat) : Rat))
    ∧ (calculateMetrics twoChains (fun _ => emptyAttrs)).average_branch_length
        = 4 := by
  constructor
  · intro g attr
    by_cases h : g.nodes = []
    · simp [calculateMetrics, h, branchPaths, rootNodes]
    · simp only [calculateMetrics, if_neg h]
  · have h1 : branchPaths twoChains = [[0, 1, 2], [3, 4, 5, 6, 7]] := by decide
    have h2 : ¬ twoChains.nodes = [] := by decide
    simp only [calculateMetrics, if_neg h2, h1]
    norm_num

/-- C3: in every non-empty graph, each node's layout entry carries
`z = level * 10`, and the node's level is the maximum over all layout roots
(in-degree-0 nodes, else the first node of minimum in-degree) of the
shortest-path distance from that root, unreachable roots contributing
nothing and a node reachable from no root getting level 0. -/
theorem claim_C3_layout_levels (g : DiGraph String)
    (plane : String → Rat × Rat) (hne : g.nodes ≠ []) (v : String)
    (hv : v ∈ g.nodes) :
    alook v (calculateLayout g plane) =
      some ⟨(plane v).1, (plane v).2, (levelOf g v : Rat) * 10⟩ ∧
    levelOf g v =
      (layoutRoots g).foldl
        (fun acc r =>
          match shortestPathLength g r v with
          | some d => max acc d
          | none => acc) 0 := by
  refine ⟨?_, rfl⟩
  rw [calculateLayout_eq_map]
  exact alook_map_self _ hv

/-- Witness for C3 at the two-root graph `wgC3` and node `"c"`, whose level
is 2 (distance 1 from root `"a"`, distance 2 from root `"b"`). -/
theorem claim_C3_layout_levels_witness :
    wgC3.nodes ≠ [] ∧ "c" ∈ wgC3.nodes ∧
    (alook "c" (calculateLayout wgC3 (fun _ => (0, 0))) =
        some ⟨0, 0, (levelOf wgC3 "c" : Rat) * 10⟩ ∧
      levelOf wgC3 "c" =
        (layoutRoots wgC3).foldl
          (fun acc r =>
            match shortestPathLength wgC3 r "c" with
            | some d => max acc d
            | none => acc) 0) := by
  refine ⟨by decide, by decide, ?_⟩
  exact claim_C3_layout_levels wgC3 (fun _ => (0, 0)) (by decide) "c" (by decide)

/-- C5: `branching_factor = total_commits / max(1, total_commits -
merge_commits)` for every graph; and for a linear chain of `N` commits,
`max_depth = N - 1`, `merge_commits = 0`, `branching_factor = 1`, each
node's level equals its shortest-path distance from the single root, and `z`
strictly increases along the chain. -/
theorem claim_C5_branching_factor_and_chain :
    (∀ (g : DiGraph String) (attr : String → NodeAttrs),
        (calculateMetrics g attr).branching_factor =
          (g.nodes.length : Rat) /
            ((max 1 (g.nodes.length - mergeCount g) : Nat) : Rat))
    ∧ ∀ (n : Nat), 1 ≤ n → ∀ (plane : Nat → Rat × Rat),
        (calculateMetrics (chainGraph n) (fun _ => emptyAttrs)).max_depth
            = n - 1
        ∧ (calculateMetrics (chainGraph n) (fun _ => emptyAttrs)).merge_commits
            = 0
        ∧ (calculateMetrics (chainGraph n)
            (fun _ => emptyAttrs)).branching_factor = 1
        ∧ (∀ v, v < n →
            levelOf (chainGraph n) v = v
            ∧ shortestPathLength (chainGraph n) 0 v = some v)
        ∧ (∀ i j, i < j → j < n →
            ((alook i (calculateLayout (chainGraph n) plane)).getD
                ⟨0, 0, 0⟩).z <
              ((alook j (calculateLayout (chainGraph n) plane)).getD
                ⟨0, 0, 0⟩).z) := by
  constructor
  · intro g attr
    by_cases h : g.nodes = []
    · simp [calculateMetrics, h, mergeCount]
    · simp only [calculateMetrics, if_neg h]
  · intro n hn plane
    have hne : ¬ (chainGraph n).nodes = [] := by
      have : (chainGraph n).nodes = List.range n := rfl
      rw [this, ← List.length_eq_zero, List.length_range]
      omega
    have hlen : (chainGraph n).nodes.length = n := by
      simp [chainGraph]
    refine ⟨?_, ?_, ?_, ?_, ?_⟩
    · simp only [calculateMetrics, if_neg hne]
      exact chain_maxDepth n hn
    · simp only [calculateMetrics, if_neg hne]
      exact chain_mergeCount n
    · simp only [calculateMetrics, if_neg hne, hlen, chain_mergeCount,
        Nat.sub_zero]
      rw [Nat.max_eq_right hn]
      exact div_self (by exact_mod_cast (by omega : n ≠ 0))
    · intro v hv
      exact ⟨chain_level n v hn hv, chain_spl n v hv⟩
    · intro i j hij hj
      have hi : i < n := by omega
      have hmem : ∀ v, v < n → v ∈ (chainGraph n).nodes := by
        intro v hv
        show v ∈ List.range n
        exact List.mem_range.mpr hv
      rw [calculateLayout_eq_map, alook_map_self _ (hmem i hi),
        alook_map_self _ (hmem j hj)]
      simp only [Option.getD_some]
      show ((levelOf (chainGraph n) i : Rat)) * 10 <
        ((levelOf (chainGraph n) j : Rat)) * 10
      rw [chain_level n i hn hi, chain_level n j hn hj]
      have : (i : Rat) < (j : Rat) := by exact_mod_cast hij
      nlinarith

/-- Witness for C5 at the chain of 4 commits. -/
theorem claim_C5_branching_factor_and_chain_witness :
    1 ≤ 4 ∧
    ((calculateMetrics (chainGraph 4) (fun _ => emptyAttrs)).max_depth = 4 - 1
    ∧ (calculateMetrics (chainGraph 4) (fun _ => emptyAttrs)).merge_commits = 0
    ∧ (calculateMetrics (chainGraph 4)
        (fun _ => emptyAttrs)).branching_factor = 1
    ∧ (∀ v, v < 4 →
        levelOf (chainGraph 4) v = v
        ∧ shortestPathLength (chainGraph 4) 0 v = some v)
    ∧ (∀ i j, i < j → j < 4 →
        ((alook i (calculateLayout (chainGraph 4) (fun _ => (0, 0)))).getD
            ⟨0, 0, 0⟩).z <
          ((alook j (calculateLayout (chainGraph 4) (fun _ => (0, 0)))).getD
            ⟨0, 0, 0⟩).z)) :=
  ⟨by omega,
   claim_C5_branching_factor_and_chain.2 4 (by omega) (fun _ => (0, 0))⟩

/-! ## Association-list lemmas for the enrichment proofs -/

theorem alook_aupdate_self {κ β : Type} [DecidableEq κ] (k : κ) (f : β → β)
    (l : List (κ × β)) : alook k (aupdate k f l) = (alook k l).map f := by
  induction l with
  | nil => rfl
  | cons p t ih =>
    obtain ⟨k', v⟩ := p
    have hstep : aupdate k f ((k', v) :: t) =
        (if k' = k then (k', f v) else (k', v)) :: aupdate k f t := rfl
    by_cases h : k' = k
    · rw [hstep, if_pos h]
      subst h
      simp [alook]
    · rw [hstep, if_neg h]
      have h2 : ¬ k = k' := fun e => h e.symm
      simp only [alook, if_neg h2]
      exact ih

theorem alook_aupdate_ne {κ β : Type} [DecidableEq κ] (k k' : κ) (f : β → β)
    (l : List (κ × β)) (h : ¬ k = k') :
    alook k (aupdate k' f l) = alook k l := by
  induction l with
  | nil => rfl
  | cons p t ih =>
    obtain ⟨a, v⟩ := p
    have hstep : aupdate k' f ((a, v) :: t) =
        (if a = k' then (a, f v) else (a, v)) :: aupdate k' f t := rfl
    by_cases ha : a = k'
    · rw [hstep, if_pos ha]
      have h2 : ¬ k = a := fun e => h (e.trans ha)
      simp only [alook, if_neg h2]
      exact ih
    · rw [hstep, if_neg ha]
      by_cases hk : k = a
      · simp [alook, hk]
      · simp only [alook, if_neg hk]
        exact ih

theorem alook_append_ne {κ β : Type} [DecidableEq κ] (k k' : κ) (v : β)
    (l : List (κ × β)) (h : ¬ k = k') :
    alook k (l ++ [(k', v)]) = alook k l := by
  induction l with
  | nil => simp [alook, h]
  | cons p t ih =>
    obtain ⟨a, w⟩ := p
    by_cases hk : k = a
    · simp [alook, hk]
    · simp only [List.cons_append, alook, if_neg hk]
      exact ih

theorem alook_append_of_some {κ β : Type} [DecidableEq κ] {k : κ} {v : β}
    {l : List (κ × β)} (l2 : List (κ × β)) (h : alook k l = some v) :
    alook k (l ++ l2) = some v := by
  induction l with
  | nil => cases h
  | cons p t ih =>
    obtain ⟨a, w⟩ := p
    by_cases hk : k = a
    · simp only [alook, if_pos hk] at h
      simp [alook, hk, h]
    · simp only [alook, if_neg hk] at h
      simp only [List.cons_append, alook, if_neg hk]
      exact ih h

theorem alook_append_of_none {κ β : Type} [DecidableEq κ] {k : κ}
    {l : List (κ × β)} (l2 : List (κ × β)) (h : alook k l = none) :
    alook k (l ++ l2) = alook k l2 := by
  induction l with
  | nil => rfl
  | cons p t ih =>
    obtain ⟨a, w⟩ := p
    by_cases hk : k = a
    · simp only [alook, if_pos hk] at h
      exact Option.noConfusion h
    · simp only [alook, if_neg hk] at h
      simp only [List.cons_append, alook, if_neg hk]
      exact ih h

/-! ## Enrichment isolation lemmas -/

theorem analyzeSingleCommit_fail (o : Oracle) (c : RawCommit)
    (st : GGraph × List (List (String × JVal)))
    (h : (o.detail c.url).ok = false) :
    analyzeSingleCommit o c st = st := by
  simp [analyzeSingleCommit, h]

theorem analyzeSingleCommit_ok_attrs (o : Oracle) (c : RawCommit)
    (st : GGraph × List (List (String × JVal)))
    (h : (o.detail c.url).ok = true) :
    alook (c.sha.getD "") (analyzeSingleCommit o c st).1.attrs =
      (alook (c.sha.getD "") st.1.attrs).map (enrichFields o c) := by
  have hne : ¬ (o.detail c.url).ok = false := by simp [h]
  simp only [analyzeSingleCommit, if_neg hne]
  exact alook_aupdate_self _ _ _

theorem analyzeSingleCommit_frame (o : Oracle) (c' : RawCommit)
    (st : GGraph × List (List (String × JVal))) (s : String)
    (h : ¬ s = c'.sha.getD "") :
    alook s (analyzeSingleCommit o c' st).1.attrs = alook s st.1.attrs := by
  by_cases hok : (o.detail c'.url).ok = false
  · rw [analyzeSingleCommit_fail o c' st hok]
  · simp only [analyzeSingleCommit, if_neg hok]
    exact alook_aupdate_ne _ _ _ _ h

theorem enrichFold_frame (o : Oracle) (l : List RawCommit) (s : String)
    (h : ∀ c' ∈ l, ¬ s = c'.sha.getD "")
    (st : GGraph × List (List (String × JVal))) :
    alook s (l.foldl (fun st c => analyzeSingleCommit o c st) st).1.attrs =
      alook s st.1.attrs := by
  induction l generalizing st with
  | nil => rfl
  | cons hd tl ih =>
    rw [List.foldl_cons, ih (fun c' hc' => h c' (List.mem_cons_of_mem hd hc')),
      analyzeSingleCommit_frame o hd st s (h hd (List.mem_cons_self hd tl))]

theorem enrichFold_isolate (o : Oracle) (l : List RawCommit) (c : RawCommit)
    (s : String) (hs : c.sha = some s) (hmem : c ∈ l)
    (hnd : (l.map (fun c' => c'.sha.getD "")).Nodup)
    (st : GGraph × List (List (String × JVal))) :
    alook s (l.foldl (fun st c => analyzeSingleCommit o c st) st).1.attrs =
      if (o.detail c.url).ok then (alook s st.1.attrs).map (enrichFields o c)
      else alook s st.1.attrs := by
  have hkey : c.sha.getD "" = s := by rw [hs]; rfl
  induction l generalizing st with
  | nil => cases hmem
  | cons hd tl ih =>
    rw [List.map_cons, List.nodup_cons] at hnd
    rcases List.mem_cons.mp hmem with rfl | htl
    · have hfr : ∀ c' ∈ tl, ¬ s = c'.sha.getD "" := by
        intro c' hc' he
        exact hnd.1 (by rw [hkey, he]; exact List.mem_map_of_mem _ hc')
      rw [List.foldl_cons, enrichFold_frame o tl s hfr]
      by_cases hok : (o.detail c.url).ok = true
      · rw [if_pos hok, ← hkey]
        exact analyzeSingleCommit_ok_attrs o c st hok
      · have hf : (o.detail c.url).ok = false := by
          cases hb : (o.detail c.url).ok
          · rfl
          · exact absurd hb hok
        rw [if_neg hok, analyzeSingleCommit_fail o c st hf]
    · have hhd : ¬ s = hd.sha.getD "" := by
        intro he
        exact hnd.1 (by rw [← he, ← hkey]; exact List.mem_map_of_mem _ htl)
      rw [List.foldl_cons, ih htl hnd.2,
        analyzeSingleCommit_frame o hd st s hhd]

/-- C1 counterexample: in the run over `[ca, cb]` where `ca`'s detail fetch
fails and `cb`'s succeeds, after the enrichment barrier the failed node
`"a1"` holds NO `analysis` attribute at all — in particular not the failure
sentinel `"Analysis failed"` — while the sibling `"b1"` is fully enriched.
This refutes the claim that the failed node's `analysis` holds the failure
sentinel. -/
theorem claim_C1_counterexample :
    (alook "a1" (analyzeCommits oC1 [ca, cb] gC1).1.attrs).bind
        (fun a => a.analysis) = none
    ∧ ¬ (alook "a1" (analyzeCommits oC1 [ca, cb] gC1).1.attrs).bind
        (fun a => a.analysis) = some "Analysis failed"
    ∧ (alook "b1" (analyzeCommits oC1 [ca, cb] gC1).1.attrs).bind
        (fun a => a.analysis) = some "summary b"
    ∧ (alook "b1" (analyzeCommits oC1 [ca, cb] gC1).1.attrs).bind
        (fun a => a.files_changed) = some ["f.py"]
    ∧ (alook "b1" (analyzeCommits oC1 [ca, cb] gC1).1.attrs).bind
        (fun a => a.files_count) = some 1
    ∧ (alook "b1" (analyzeCommits oC1 [ca, cb] gC1).1.attrs).bind
        (fun a => a.code) = some "patchtext" := by decide

/-- C1 (amended): enrichment failure is isolated per commit, but the failed
node keeps its pre-enrichment attributes unchanged — its `analysis` stays
absent rather than holding the failure sentinel — while every commit whose
detail fetch succeeded has exactly its own enrichment (files_changed,
files_count, analysis, code from its own responses) applied to its node,
independently of any other commit's failure. -/
theorem claim_C1_enrichment_isolated (o : Oracle) (commits : List RawCommit)
    (g0 : GGraph) (c : RawCommit) (s : String) (hs : c.sha = some s)
    (hmem : c ∈ commits)
    (hnd : (commits.map (fun c' => c'.sha.getD "")).Nodup) :
    (¬ (o.detail c.url).ok = true →
        alook s (analyzeCommits o commits g0).1.attrs = alook s g0.attrs)
    ∧ ((o.detail c.url).ok = true →
        alook s (analyzeCommits o commits g0).1.attrs =
          (alook s g0.attrs).map (enrichFields o c)) := by
  have hiso := enrichFold_isolate o commits c s hs hmem hnd (g0, [])
  constructor
  · intro hfail
    rw [show analyzeCommits o commits g0 =
        commits.foldl (fun st c => analyzeSingleCommit o c st) (g0, []) from
        rfl, hiso, if_neg hfail]
  · intro hok
    rw [show analyzeCommits o commits g0 =
        commits.foldl (fun st c => analyzeSingleCommit o c st) (g0, []) from
        rfl, hiso, if_pos hok]

/-- Witness for C1 (amended) at the successful sibling `cb` of the failing
run `[ca, cb]`. -/
theorem claim_C1_enrichment_isolated_witness :
    cb.sha = some "b1" ∧ cb ∈ [ca, cb]
    ∧ ([ca, cb].map (fun c' => c'.sha.getD "")).Nodup
    ∧ ((¬ (oC1.detail cb.url).ok = true →
        alook "b1" (analyzeCommits oC1 [ca, cb] gC1).1.attrs =
          alook "b1" gC1.attrs)
    ∧ ((oC1.detail cb.url).ok = true →
        alook "b1" (analyzeCommits oC1 [ca, cb] gC1).1.attrs =
          (alook "b1" gC1.attrs).map (enrichFields oC1 cb))) :=
  ⟨by decide, by decide, by decide,
   claim_C1_enrichment_isolated oC1 [ca, cb] gC1 cb "b1" (by decide)
     (by decide) (by decide)⟩

/-! ## Graph-construction error lemmas -/

theorem buildStep_bad (shas : List String) (st : GGraph) (c : RawCommit)
    (h : c.sha = none ∨ c.authorName = none) :
    buildStep shas st c = Except.error "KeyError" := by
  rcases h with h | h
  · unfold buildStep
    rw [h]
    rfl
  · cases hsha : c.sha with
    | none => unfold buildStep; rw [hsha]; rfl
    | some s => unfold buildStep; rw [hsha, h]; rfl

theorem buildStep_ok_of_fields (shas : List String) (st : GGraph)
    (c : RawCommit) (s a : String) (hs : c.sha = some s)
    (ha : c.authorName = some a) :
    buildStep shas st c =
      Except.ok (c.parents.foldl
        (fun st2 p => if p ∈ shas then st2.addEdgeS p s else st2)
        (st.addCommitNode s c.message a c.date c.parents.isEmpty)) := by
  unfold buildStep
  rw [hs, ha]
  rfl

theorem build_error_of_bad (shas : List String) :
    ∀ (l : List RawCommit) (st : GGraph) (c : RawCommit), c ∈ l →
      (c.sha = none ∨ c.authorName = none) →
      l.foldlM (buildStep shas) st = Except.error "KeyError" := by
  intro l
  induction l with
  | nil => intro st c h; cases h
  | cons hd tl ih =>
    intro st c hmem hbad
    rcases List.mem_cons.mp hmem with rfl | htl
    · rw [List.foldlM_cons, buildStep_bad shas st c hbad]
      rfl
    · by_cases hgood : hd.sha = none ∨ hd.authorName = none
      · rw [List.foldlM_cons, buildStep_bad shas st hd hgood]
        rfl
      · push_neg at hgood
        obtain ⟨s, hs⟩ := Option.ne_none_iff_exists'.mp hgood.1
        obtain ⟨a, ha⟩ := Option.ne_none_iff_exists'.mp hgood.2
        rw [List.foldlM_cons, buildStep_ok_of_fields shas st hd s a hs ha]
        exact ih _ c htl hbad

/-- C2 counterexample: for the page containing the record `cmal` (author
missing), and likewise for a failed commit-list fetch, `analyze_repository`
does NOT surface any error to its caller: the exception is caught internally
and a plain fresh empty graph is returned (with nothing saved), a value of
the normal success shape. -/
theorem claim_C2_counterexample :
    analyzeRepository "r" (Except.ok [cmal]) oTriv =
      ⟨.graphOnly GGraph.empty, none⟩
    ∧ (analyzeRepository "r" (Except.ok [cmal]) oTriv).outcome.isRaised
        = false
    ∧ analyzeRepository "r" (Except.error "HTTP 500") oTriv =
      ⟨.graphOnly GGraph.empty, none⟩
    ∧ (analyzeRepository "r" (Except.error "HTTP 500") oTriv).outcome.isRaised
        = false := by decide

/-- C2 (amended): a failed commit-list fetch or a malformed record (missing
SHA or author) aborts the whole analysis and no partial graph is returned,
but the error is not surfaced to the caller: the exception handler of lines
111-113 swallows it and returns a fresh empty graph, with nothing saved. -/
theorem claim_C2_malformed_aborts :
    (∀ (repo : String) (o : Oracle) (e : String),
        analyzeRepository repo (Except.error e) o =
          ⟨.graphOnly GGraph.empty, none⟩)
    ∧ ∀ (repo : String) (o : Oracle) (commits : List RawCommit)
        (c : RawCommit), c ∈ commits →
        (c.sha = none ∨ c.authorName = none) →
        analyzeRepository repo (Except.ok commits) o =
          ⟨.graphOnly GGraph.empty, none⟩ := by
  constructor
  · intro repo o e
    rfl
  · intro repo o commits c hmem hbad
    have hm : buildGraph commits = Except.error "KeyError" :=
      build_error_of_bad (pageShas commits) commits GGraph.empty c hmem hbad
    have hne : commits.isEmpty = false := by
      cases commits
      · cases hmem
      · rfl
    simp [analyzeRepository, hne, hm]

/-- Witness for C2 (amended) at the malformed single-record page `[cmal]`. -/
theorem claim_C2_malformed_aborts_witness :
    cmal ∈ [cmal] ∧ (cmal.sha = none ∨ cmal.authorName = none) ∧
    analyzeRepository "r" (Except.ok [cmal]) o9 =
      ⟨.graphOnly GGraph.empty, none⟩ :=
  ⟨by decide, by decide,
   claim_C2_malformed_aborts.2 "r" o9 [cmal] cmal (by decide) (by decide)⟩

/-- C10: `analyze_repository` has no single return shape: an empty fetched
page returns the pair `(empty graph, [])`, a successful analysis of a
non-empty page returns the enriched graph alone, any internal exception
(failed list fetch or failed build) returns a bare fresh empty graph, and
the pair shape is distinct from the graph-alone shape. -/
theorem claim_C10_inconsistent_return_shape :
    (∀ (repo : String) (o : Oracle),
        analyzeRepository repo (Except.ok []) o =
          ⟨.pair GGraph.empty [], none⟩)
    ∧ (∀ (repo : String) (o : Oracle) (commits : List RawCommit) (g : GGraph),
        ¬ commits = [] → buildGraph commits = Except.ok g →
        (analyzeRepository repo (Except.ok commits) o).outcome =
          .graphOnly (analyzeCommits o commits g).1)
    ∧ (∀ (repo : String) (o : Oracle) (e : String),
        (analyzeRepository repo (Except.error e) o).outcome =
          .graphOnly GGraph.empty)
    ∧ (∀ (repo : String) (o : Oracle) (commits : List RawCommit),
        ¬ commits = [] → buildGraph commits = Except.error "KeyError" →
        (analyzeRepository repo (Except.ok commits) o).outcome =
          .graphOnly GGraph.empty)
    ∧ (∀ (g : GGraph) (l : List (List (String × JVal))) (g' : GGraph),
        ¬ AnalyzeOutcome.pair g l = AnalyzeOutcome.graphOnly g') := by
  refine ⟨fun repo o => rfl, ?_, fun repo o e => rfl, ?_, ?_⟩
  · intro repo o commits g hne hok
    have he : commits.isEmpty = false := by
      cases commits
      · exact absurd rfl hne
      · rfl
    simp [analyzeRepository, he, hok]
  · intro repo o commits hne herr
    have he : commits.isEmpty = false := by
      cases commits
      · exact absurd rfl hne
      · rfl
    simp [analyzeRepository, he, herr]
  · intro g l g' h
    exact AnalyzeOutcome.noConfusion h

/-- Witness for C10 at the two-commit page `[ca, cb]`. -/
theorem claim_C10_inconsistent_return_shape_witness :
    ¬ [ca, cb] = ([] : List RawCommit)
    ∧ buildGraph [ca, cb] = Except.ok gC1
    ∧ (analyzeRepository "r" (Except.ok [ca, cb]) oC1).outcome =
        .graphOnly (analyzeCommits oC1 [ca, cb] gC1).1 :=
  ⟨by decide, by rfl,
   claim_C10_inconsistent_return_shape.2.1 "r" oC1 [ca, cb] gC1 (by decide)
     (by rfl)⟩

/-! ## Persistence lemmas -/

theorem build_ok_of_wf (shas : List String) :
    ∀ (l : List RawCommit) (st : GGraph),
      (∀ c ∈ l, c.sha ≠ none ∧ c.authorName ≠ none) →
      ∃ st', l.foldlM (buildStep shas) st = Except.ok st' := by
  intro l
  induction l with
  | nil => intro st _; exact ⟨st, rfl⟩
  | cons hd tl ih =>
    intro st h
    obtain ⟨s, hs⟩ :=
      Option.ne_none_iff_exists'.mp (h hd (List.mem_cons_self hd tl)).1
    obtain ⟨a, ha⟩ :=
      Option.ne_none_iff_exists'.mp (h hd (List.mem_cons_self hd tl)).2
    obtain ⟨st', hst'⟩ :=
      ih (hd.parents.foldl
            (fun st2 p => if p ∈ shas then st2.addEdgeS p s else st2)
            (st.addCommitNode s hd.message a hd.date hd.parents.isEmpty))
        (fun c hc => h c (List.mem_cons_of_mem hd hc))
    refine ⟨st', ?_⟩
    rw [List.foldlM_cons, buildStep_ok_of_fields shas st hd s a hs ha]
    exact hst'

theorem analyzeSingleCommit_keys (o : Oracle) (c : RawCommit)
    (st : GGraph × List (List (String × JVal)))
    (r : List (String × JVal)) (hr : r ∈ (analyzeSingleCommit o c st).2) :
    r ∈ st.2 ∨ r.map Prod.fst =
      ["author", "code", "explanation", "sha", "files edited"] := by
  by_cases hok : (o.detail c.url).ok = false
  · rw [analyzeSingleCommit_fail o c st hok] at hr
    exact Or.inl hr
  · simp only [analyzeSingleCommit, if_neg hok] at hr
    rcases List.mem_append.mp hr with h | h
    · exact Or.inl h
    · rcases List.mem_singleton.mp h with rfl
      exact Or.inr rfl

theorem enrichFold_record_keys (o : Oracle) :
    ∀ (l : List RawCommit) (st : GGraph × List (List (String × JVal))),
      (∀ r ∈ st.2, r.map Prod.fst =
        ["author", "code", "explanation", "sha", "files edited"]) →
      ∀ r ∈ (l.foldl (fun st c => analyzeSingleCommit o c st) st).2,
        r.map Prod.fst =
          ["author", "code", "explanation", "sha", "files edited"] := by
  intro l
  induction l with
  | nil => intro st h r hr; exact h r hr
  | cons hd tl ih =>
    intro st h r hr
    rw [List.foldl_cons] at hr
    refine ih (analyzeSingleCommit o hd st) ?_ r hr
    intro r' hr'
    rcases analyzeSingleCommit_keys o hd st r' hr' with h' | h'
    · exact h r' h'
    · exact h'

/-- C9 counterexample: in a successful run, the persisted records carry the
key `"files edited"` (with a space), not `files_edited` as the claim states
(together with the file name `repository_author.json` for the most frequent
author). -/
theorem claim_C9_counterexample :
    ((analyzeRepository "repo" (Except.ok [c9a, c9b, c9c]) o9).saved.map
        (fun p => (p.1, p.2.map (fun r => r.map Prod.fst)))) =
      some ("repo_bob.json",
        [["author", "code", "explanation", "sha", "files edited"],
         ["author", "code", "explanation", "sha", "files edited"],
         ["author", "code", "explanation", "sha", "files edited"]])
    ∧ ¬ "files_edited" ∈
        (((analyzeRepository "repo" (Except.ok [c9a, c9b, c9c]) o9).saved.map
            (fun p => p.2.flatMap (fun r => r.map Prod.fst))).getD []) := by
  decide

/-- C9 (amended): every successful run over a non-empty well-formed page
persists the enrichment-result list under the file name
`{repository}_{author}.json`, where the author is the most frequent author
of the fetched commits (first author attaining the maximum count in
insertion order), and every persisted record has exactly the fields
`author, code, explanation, sha, "files edited"` — the last key spelled
with a space, not `files_edited`. -/
theorem claim_C9_persisted_summaries (repo : String) (o : Oracle)
    (commits : List RawCommit) (hne : ¬ commits = [])
    (hwf : ∀ c ∈ commits, c.sha ≠ none ∧ c.authorName ≠ none) :
    ∃ g, buildGraph commits = Except.ok g ∧
      analyzeRepository repo (Except.ok commits) o =
        ⟨.graphOnly (analyzeCommits o commits g).1,
         some (repo ++ "_" ++ mainAuthor commits ++ ".json",
           (analyzeCommits o commits g).2)⟩ ∧
      mainAuthor commits = (argmaxFirst (authorCounts commits)).getD "" ∧
      ∀ r ∈ (analyzeCommits o commits g).2,
        r.map Prod.fst =
          ["author", "code", "explanation", "sha", "files edited"] := by
  obtain ⟨g, hg⟩ := build_ok_of_wf (pageShas commits) commits GGraph.empty hwf
  have hg' : buildGraph commits = Except.ok g := hg
  have he : commits.isEmpty = false := by
    cases commits
    · exact absurd rfl hne
    · rfl
  refine ⟨g, hg', ?_, rfl, ?_⟩
  · simp [analyzeRepository, he, hg']
  · exact enrichFold_record_keys o commits (g, []) (fun r hr => absurd hr
      (List.not_mem_nil r))

/-- Witness for C9 (amended) at the page `[c9a, c9b, c9c]` (authors alice,
bob, bob). -/
theorem claim_C9_persisted_summaries_witness :
    ¬ [c9a, c9b, c9c] = ([] : List RawCommit)
    ∧ (∀ c ∈ [c9a, c9b, c9c], c.sha ≠ none ∧ c.authorName ≠ none)
    ∧ ∃ g, buildGraph [c9a, c9b, c9c] = Except.ok g ∧
        analyzeRepository "repo" (Except.ok [c9a, c9b, c9c]) o9 =
          ⟨.graphOnly (analyzeCommits o9 [c9a, c9b, c9c] g).1,
           some ("repo" ++ "_" ++ mainAuthor [c9a, c9b, c9c] ++ ".json",
             (analyzeCommits o9 [c9a, c9b, c9c] g).2)⟩ ∧
        mainAuthor [c9a, c9b, c9c] =
          (argmaxFirst (authorCounts [c9a, c9b, c9c])).getD "" ∧
        ∀ r ∈ (analyzeCommits o9 [c9a, c9b, c9c] g).2,
          r.map Prod.fst =
            ["author", "code", "explanation", "sha", "files edited"] :=
  ⟨by decide, by decide,
   claim_C9_persisted_summaries "repo" o9 [c9a, c9b, c9c] (by decide)
     (by decide)⟩

/-! ## Structural lemmas on the graph builder (for C8) -/

theorem addNodeKey_edges (st : GGraph) (k : String) :
    (st.addNodeKey k).g.edges = st.g.edges := by
  unfold GGraph.addNodeKey
  split_ifs <;> rfl

theorem mem_addNodeKey (st : GGraph) (k x : String) (h : x ∈ st.g.nodes) :
    x ∈ (st.addNodeKey k).g.nodes := by
  unfold GGraph.addNodeKey
  split_ifs
  · exact h
  · exact List.mem_append_left _ h

theorem addNodeKey_alook_of_mem (st : GGraph) (k x : String)
    (hx : x ∈ st.g.nodes) :
    alook x (st.addNodeKey k).attrs = alook x st.attrs := by
  unfold GGraph.addNodeKey
  split_ifs with h
  · rfl
  · exact alook_append_ne x k emptyAttrs st.attrs (fun e => h (e ▸ hx))

theorem addEdgeS_attrs_nodes (st : GGraph) (u v : String) :
    (st.addEdgeS u v).attrs = ((st.addNodeKey u).addNodeKey v).attrs ∧
    (st.addEdgeS u v).g.nodes = ((st.addNodeKey u).addNodeKey v).g.nodes := by
  unfold GGraph.addEdgeS
  dsimp only
  split_ifs <;> exact ⟨rfl, rfl⟩

theorem addEdgeS_alook_of_mem (st : GGraph) (u v x : String)
    (hx : x ∈ st.g.nodes) :
    alook x (st.addEdgeS u v).attrs = alook x st.attrs := by
  rw [(addEdgeS_attrs_nodes st u v).1,
    addNodeKey_alook_of_mem _ v x (mem_addNodeKey st u x hx),
    addNodeKey_alook_of_mem st u x hx]

theorem mem_addEdgeS (st : GGraph) (u v x : String) (hx : x ∈ st.g.nodes) :
    x ∈ (st.addEdgeS u v).g.nodes := by
  rw [(addEdgeS_attrs_nodes st u v).2]
  exact mem_addNodeKey _ v x (mem_addNodeKey st u x hx)

theorem addEdgeS_inDegree_ne (st : GGraph) (u v s : String) (hv : ¬ v = s) :
    (st.addEdgeS u v).g.inDegree s = st.g.inDegree s := by
  have he : ((st.addNodeKey u).addNodeKey v).g.edges = st.g.edges := by
    rw [addNodeKey_edges, addNodeKey_edges]
  unfold GGraph.addEdgeS DiGraph.inDegree
  dsimp only
  split_ifs
  · rw [he]
  · show (((st.addNodeKey u).addNodeKey v).g.edges ++ [(u, v)]).countP _ = _
    rw [List.countP_append, he]
    simp [hv]

theorem addCommitNode_edges (st : GGraph) (sha msg author date : String)
    (isInit : Bool) :
    (st.addCommitNode sha msg author date isInit).g.edges = st.g.edges := by
  unfold GGraph.addCommitNode
  split_ifs <;> rfl

theorem mem_addCommitNode (st : GGraph) (sha msg author date : String)
    (isInit : Bool) (x : String) (h : x ∈ st.g.nodes) :
    x ∈ (st.addCommitNode sha msg author date isInit).g.nodes := by
  unfold GGraph.addCommitNode
  split_ifs
  · exact h
  · exact List.mem_append_left _ h

theorem addCommitNode_alook_ne (st : GGraph) (sha msg author date : String)
    (isInit : Bool) (x : String) (hx : ¬ x = sha) :
    alook x (st.addCommitNode sha msg author date isInit).attrs =
      alook x st.attrs := by
  unfold GGraph.addCommitNode
  dsimp only
  split_ifs
  · exact alook_aupdate_ne x sha
      (fun a => { a with message := some msg, author := some author,
                         date := some date, is_initial := some isInit })
      st.attrs hx
  · exact alook_append_ne x sha _ st.attrs hx

theorem addCommitNode_alook_self (st : GGraph) (sha msg author date : String)
    (isInit : Bool) (hinv : KeyInv st) :
    (alook sha (st.addCommitNode sha msg author date isInit).attrs).bind
        (fun a => a.is_initial) = some isInit ∧
    sha ∈ (st.addCommitNode sha msg author date isInit).g.nodes := by
  unfold GGraph.addCommitNode
  dsimp only
  split_ifs with h
  · obtain ⟨a, ha⟩ := Option.isSome_iff_exists.mp ((hinv sha).mp h)
    constructor
    · rw [alook_aupdate_self, ha]
      rfl
    · exact h
  · have hnone : alook sha st.attrs = none :=
      Option.not_isSome_iff_eq_none.mp (fun hs => h ((hinv sha).mpr hs))
    constructor
    · rw [alook_append_of_none _ hnone]
      simp [alook]
    · exact List.mem_append_right _ (List.mem_singleton.mpr rfl)

theorem keyInv_empty : KeyInv GGraph.empty := by
  intro k
  simp [GGraph.empty, DiGraph.empty, alook]

theorem keyInv_insert (nodes : List String) (edges : List (String × String))
    (attrs : List (String × NodeAttrs)) (k : String) (a : NodeAttrs)
    (h : KeyInv ⟨⟨nodes, edges⟩, attrs⟩) (hk : ¬ k ∈ nodes) :
    KeyInv ⟨⟨nodes ++ [k], edges⟩, attrs ++ [(k, a)]⟩ := by
  intro x
  by_cases hx : x = k
  · subst hx
    have hnone : alook x attrs = none :=
      Option.not_isSome_iff_eq_none.mp (fun hs => hk ((h x).mpr hs))
    constructor
    · intro _
      rw [alook_append_of_none _ hnone]
      simp [alook]
    · intro _
      exact List.mem_append_right _ (List.mem_singleton.mpr rfl)
  · rw [show alook x (attrs ++ [(k, a)]) = alook x attrs from
      alook_append_ne x k a attrs hx]
    constructor
    · intro hmem
      rcases List.mem_append.mp hmem with hm | hm
      · exact (h x).mp hm
      · exact absurd (List.mem_singleton.mp hm) hx
    · intro hs
      exact List.mem_append_left _ ((h x).mpr hs)

theorem keyInv_addNodeKey (st : GGraph) (k : String) (h : KeyInv st) :
    KeyInv (st.addNodeKey k) := by
  unfold GGraph.addNodeKey
  split_ifs with hk
  · exact h
  · exact keyInv_insert st.g.nodes st.g.edges st.attrs k emptyAttrs h hk

theorem keyInv_addEdgeS (st : GGraph) (u v : String) (h : KeyInv st) :
    KeyInv (st.addEdgeS u v) := by
  have h2 : KeyInv ((st.addNodeKey u).addNodeKey v) :=
    keyInv_addNodeKey _ v (keyInv_addNodeKey st u h)
  intro x
  rw [(addEdgeS_attrs_nodes st u v).1, (addEdgeS_attrs_nodes st u v).2]
  exact h2 x

theorem keyInv_addCommitNode (st : GGraph) (sha msg author date : String)
    (isInit : Bool) (h : KeyInv st) :
    KeyInv (st.addCommitNode sha msg author date isInit) := by
  unfold GGraph.addCommitNode
  dsimp only
  split_ifs with hk
  · intro x
    show x ∈ st.g.nodes ↔ _
    by_cases hx : x = sha
    · subst hx
      rw [alook_aupdate_self]
      have hsha := h x
      cases halook : alook x st.attrs <;> rw [halook] at hsha <;>
        simpa using hsha
    · rw [alook_aupdate_ne x sha _ st.attrs hx]
      exact h x
  · exact keyInv_insert st.g.nodes st.g.edges st.attrs sha _ h hk

theorem keyInv_parents_fold (shas : List String) (sha : String)
    (parents : List String) :
    ∀ (st : GGraph), KeyInv st →
      KeyInv (parents.foldl
        (fun st2 p => if p ∈ shas then st2.addEdgeS p sha else st2) st) := by
  induction parents with
  | nil => intro st h; exact h
  | cons p ps ih =>
    intro st h
    rw [List.foldl_cons]
    by_cases hp : p ∈ shas
    · exact ih _ (by rw [if_pos hp]; exact keyInv_addEdgeS st p sha h)
    · exact ih _ (by rw [if_neg hp]; exact h)

theorem buildStep_ok_shape (shas : List String) (st st' : GGraph)
    (c : RawCommit) (hok : buildStep shas st c = Except.ok st') :
    ∃ s a, c.sha = some s ∧ c.authorName = some a ∧
      st' = c.parents.foldl
        (fun st2 p => if p ∈ shas then st2.addEdgeS p s else st2)
        (st.addCommitNode s c.message a c.date c.parents.isEmpty) := by
  cases hs : c.sha with
  | none =>
    rw [buildStep_bad shas st c (Or.inl hs)] at hok
    exact Except.noConfusion hok
  | some s =>
    cases ha : c.authorName with
    | none =>
      rw [buildStep_bad shas st c (Or.inr ha)] at hok
      exact Except.noConfusion hok
    | some a =>
      rw [buildStep_ok_of_fields shas st c s a hs ha] at hok
      exact ⟨s, a, rfl, rfl, (Except.ok.inj hok).symm⟩

theorem keyInv_buildStep (shas : List String) (st st' : GGraph)
    (c : RawCommit) (h : KeyInv st)
    (hok : buildStep shas st c = Except.ok st') : KeyInv st' := by
  obtain ⟨s, a, _, _, rfl⟩ := buildStep_ok_shape shas st st' c hok
  exact keyInv_parents_fold shas s c.parents _
    (keyInv_addCommitNode st s c.message a c.date c.parents.isEmpty h)

theorem foldlM_cons_ok (f : GGraph → RawCommit → Except String GGraph)
    (hd : RawCommit) (tl : List RawCommit) (st st' : GGraph)
    (h : (hd :: tl).foldlM f st = Except.ok st') :
    ∃ st1, f st hd = Except.ok st1 ∧ tl.foldlM f st1 = Except.ok st' := by
  rw [List.foldlM_cons] at h
  cases h1 : f st hd with
  | error e =>
    rw [h1] at h
    exact Except.noConfusion h
  | ok st1 =>
    rw [h1] at h
    exact ⟨st1, rfl, h⟩

theorem keyInv_foldlM (shas : List String) :
    ∀ (l : List RawCommit) (st st' : GGraph), KeyInv st →
      l.foldlM (buildStep shas) st = Except.ok st' → KeyInv st' := by
  intro l
  induction l with
  | nil => intro st st' h hok; cases hok; exact h
  | cons hd tl ih =>
    intro st st' h hok
    obtain ⟨st1, h1, h2⟩ := foldlM_cons_ok _ hd tl st st' hok
    exact ih st1 st' (keyInv_buildStep shas st st1 hd h h1) h2

theorem parents_fold_inDegree_ne (shas : List String) (sha s : String)
    (hne : ¬ sha = s) (parents : List String) :
    ∀ (st : GGraph),
      (parents.foldl
        (fun st2 p => if p ∈ shas then st2.addEdgeS p sha else st2)
        st).g.inDegree s = st.g.inDegree s := by
  induction parents with
  | nil => intro st; rfl
  | cons p ps ih =>
    intro st
    rw [List.foldl_cons]
    by_cases hp : p ∈ shas
    · rw [if_pos hp, ih, addEdgeS_inDegree_ne st p sha s hne]
    · rw [if_neg hp, ih]

theorem buildStep_inDegree_ne (shas : List String) (st st' : GGraph)
    (c : RawCommit) (s s' : String) (hs : c.sha = some s') (hne : ¬ s' = s)
    (hok : buildStep shas st c = Except.ok st') :
    st'.g.inDegree s = st.g.inDegree s := by
  obtain ⟨s2, a, hs2, _, rfl⟩ := buildStep_ok_shape shas st st' c hok
  have he : s2 = s' := by rw [hs] at hs2; exact (Option.some.inj hs2).symm
  have hne2 : ¬ s2 = s := by rw [he]; exact hne
  rw [parents_fold_inDegree_ne shas s2 s hne2]
  show (st.addCommitNode s2 c.message a c.date c.parents.isEmpty).g.edges.countP
      (fun e => decide (e.2 = s)) = _
  rw [addCommitNode_edges]
  rfl

theorem foldlM_inDegree_frame (shas : List String) (s : String) :
    ∀ (l : List RawCommit) (st st' : GGraph),
      l.foldlM (buildStep shas) st = Except.ok st' →
      (∀ c' ∈ l, ∀ s', c'.sha = some s' → ¬ s' = s) →
      st'.g.inDegree s = st.g.inDegree s := by
  intro l
  induction l with
  | nil => intro st st' hok _; cases hok; rfl
  | cons hd tl ih =>
    intro st st' hok hn
    obtain ⟨st1, h1, h2⟩ := foldlM_cons_ok _ hd tl st st' hok
    obtain ⟨s', a, hs', _, _⟩ := buildStep_ok_shape shas st st1 hd h1
    rw [ih st1 st' h2 (fun c' hc' => hn c' (List.mem_cons_of_mem hd hc')),
      buildStep_inDegree_ne shas st st1 hd s s' hs'
        (hn hd (List.mem_cons_self hd tl) s' hs') h1]

theorem parents_fold_alook_mem (shas : List String) (sha s : String)
    (parents : List String) :
    ∀ (st : GGraph), s ∈ st.g.nodes →
      alook s (parents.foldl
        (fun st2 p => if p ∈ shas then st2.addEdgeS p sha else st2)
        st).attrs = alook s st.attrs ∧
      s ∈ (parents.foldl
        (fun st2 p => if p ∈ shas then st2.addEdgeS p sha else st2)
        st).g.nodes := by
  induction parents with
  | nil => intro st h; exact ⟨rfl, h⟩
  | cons p ps ih =>
    intro st h
    rw [List.foldl_cons]
    by_cases hp : p ∈ shas
    · rw [if_pos hp]
      obtain ⟨ha, hm⟩ := ih (st.addEdgeS p sha) (mem_addEdgeS st p sha s h)
      exact ⟨ha.trans (addEdgeS_alook_of_mem st p sha s h), hm⟩
    · rw [if_neg hp]
      exact ih st h

theorem buildStep_frame (shas : List String) (st st' : GGraph)
    (c : RawCommit) (s s' : String) (hs : c.sha = some s') (hne : ¬ s' = s)
    (hmem : s ∈ st.g.nodes)
    (hok : buildStep shas st c = Except.ok st') :
    alook s st'.attrs = alook s st.attrs ∧ s ∈ st'.g.nodes := by
  obtain ⟨s2, a, hs2, _, rfl⟩ := buildStep_ok_shape shas st st' c hok
  have he : s2 = s' := by rw [hs] at hs2; exact (Option.some.inj hs2).symm
  have hne2 : ¬ s2 = s := by rw [he]; exact hne
  have hm1 : s ∈ (st.addCommitNode s2 c.message a c.date
      c.parents.isEmpty).g.nodes :=
    mem_addCommitNode st s2 c.message a c.date c.parents.isEmpty s hmem
  obtain ⟨ha, hm⟩ := parents_fold_alook_mem shas s2 s c.parents _ hm1
  refine ⟨ha.trans ?_, hm⟩
  exact addCommitNode_alook_ne st s2 c.message a c.date c.parents.isEmpty s
    (fun e => hne2 e.symm)

theorem foldlM_attrs_frame (shas : List String) (s : String) :
    ∀ (l : List RawCommit) (st st' : GGraph),
      l.foldlM (buildStep shas) st = Except.ok st' →
      (∀ c' ∈ l, ∀ s', c'.sha = some s' → ¬ s' = s) →
      s ∈ st.g.nodes →
      alook s st'.attrs = alook s st.attrs ∧ s ∈ st'.g.nodes := by
  intro l
  induction l with
  | nil => intro st st' hok _ hm; cases hok; exact ⟨rfl, hm⟩
  | cons hd tl ih =>
    intro st st' hok hn hm
    obtain ⟨st1, h1, h2⟩ := foldlM_cons_ok _ hd tl st st' hok
    obtain ⟨s', a, hs', _, _⟩ := buildStep_ok_shape shas st st1 hd h1
    obtain ⟨ha1, hm1⟩ := buildStep_frame shas st st1 hd s s' hs'
      (hn hd (List.mem_cons_self hd tl) s' hs') hm h1
    obtain ⟨ha2, hm2⟩ :=
      ih st1 st' h2 (fun c' hc' => hn c' (List.mem_cons_of_mem hd hc')) hm1
    exact ⟨ha2.trans ha1, hm2⟩

theorem parents_fold_skip (shas : List String) (sha : String)
    (parents : List String) (st : GGraph)
    (h : ∀ p ∈ parents, p ∉ shas) :
    parents.foldl
      (fun st2 p => if p ∈ shas then st2.addEdgeS p sha else st2) st = st := by
  induction parents with
  | nil => rfl
  | cons p ps ih =>
    rw [List.foldl_cons, if_neg (h p (List.mem_cons_self p ps))]
    exact ih (fun q hq => h q (List.mem_cons_of_mem p hq))

theorem buildStep_self_orphan (shas : List String) (st st' : GGraph)
    (c : RawCommit) (s : String) (hs : c.sha = some s)
    (hpar : ∀ p ∈ c.parents, p ∉ shas) (hinv : KeyInv st)
    (hok : buildStep shas st c = Except.ok st') :
    st'.g.edges = st.g.edges ∧
    (alook s st'.attrs).bind (fun a => a.is_initial) =
      some c.parents.isEmpty ∧
    s ∈ st'.g.nodes := by
  obtain ⟨s2, a, hs2, _, rfl⟩ := buildStep_ok_shape shas st st' c hok
  have he : s = s2 := by rw [hs] at hs2; exact Option.some.inj hs2
  rw [he, parents_fold_skip shas s2 c.parents _ hpar]
  obtain ⟨hself, hmem⟩ := addCommitNode_alook_self st s2 c.message a c.date
    c.parents.isEmpty hinv
  exact ⟨addCommitNode_edges st s2 c.message a c.date c.parents.isEmpty,
    hself, hmem⟩

theorem foldlM_append_ok (l1 l2 : List RawCommit) (x : RawCommit)
    (st st' : GGraph) {f : GGraph → RawCommit → Except String GGraph}
    (h : (l1 ++ x :: l2).foldlM f st = Except.ok st') :
    ∃ st1 st2, l1.foldlM f st = Except.ok st1 ∧ f st1 x = Except.ok st2 ∧
      l2.foldlM f st2 = Except.ok st' := by
  rw [List.foldlM_append] at h
  cases h1 : l1.foldlM f st with
  | error e =>
    rw [h1] at h
    exact Except.noConfusion h
  | ok st1 =>
    rw [h1] at h
    have h' : (x :: l2).foldlM f st1 = Except.ok st' := h
    obtain ⟨st2, h2, h3⟩ := foldlM_cons_ok f x l2 st1 st' h'
    exact ⟨st1, st2, rfl, h2, h3⟩

/-- C8: a fetched commit whose parent SHAs all lie outside the fetched page
receives no incoming edge, so its node is a structural root
(`in_degree == 0`), while its `is_initial` attribute is `false` whenever its
parent list is non-empty. -/
theorem claim_C8_orphan_is_structural_root (commits : List RawCommit)
    (st : GGraph) (c : RawCommit) (s : String) (hs : c.sha = some s)
    (hmem : c ∈ commits) (hnd : (pageShas commits).Nodup)
    (horphan : ∀ p ∈ c.parents, p ∉ pageShas commits)
    (hok : buildGraph commits = Except.ok st) :
    st.g.inDegree s = 0 ∧
    (¬ c.parents = [] →
      (alook s st.attrs).bind (fun a => a.is_initial) = some false) := by
  obtain ⟨l1, l2, rfl⟩ := List.append_of_mem hmem
  have hpage : pageShas (l1 ++ c :: l2) =
      pageShas l1 ++ s :: pageShas l2 := by
    unfold pageShas
    rw [List.filterMap_append, List.filterMap_cons, hs]
  have hnd' := hpage ▸ hnd
  have hs_notl1 : s ∉ pageShas l1 := fun hin =>
    (List.disjoint_of_nodup_append hnd') hin (List.mem_cons_self _ _)
  have hs_notl2 : s ∉ pageShas l2 := by
    have := List.Nodup.of_append_right hnd'
    exact (List.nodup_cons.mp this).1
  have hne1 : ∀ c' ∈ l1, ∀ s', c'.sha = some s' → ¬ s' = s := by
    intro c' hc' s' hs' he
    exact hs_notl1 (he ▸ List.mem_filterMap.mpr ⟨c', hc', hs'⟩)
  have hne2 : ∀ c' ∈ l2, ∀ s', c'.sha = some s' → ¬ s' = s := by
    intro c' hc' s' hs' he
    exact hs_notl2 (he ▸ List.mem_filterMap.mpr ⟨c', hc', hs'⟩)
  obtain ⟨st1, st2, h1, h2, h3⟩ :=
    foldlM_append_ok l1 l2 c GGraph.empty st hok
  have hinv1 : KeyInv st1 :=
    keyInv_foldlM (pageShas (l1 ++ c :: l2)) l1 GGraph.empty st1 keyInv_empty
      h1
  have hdeg1 : st1.g.inDegree s = 0 := by
    rw [foldlM_inDegree_frame (pageShas (l1 ++ c :: l2)) s l1 GGraph.empty
      st1 h1 hne1]
    rfl
  obtain ⟨hedges, hinit, hmem2⟩ := buildStep_self_orphan
    (pageShas (l1 ++ c :: l2)) st1 st2 c s hs horphan hinv1 h2
  have hdeg2 : st2.g.inDegree s = 0 := by
    show st2.g.edges.countP (fun e => decide (e.2 = s)) = 0
    rw [hedges]
    exact hdeg1
  have hdeg3 : st.g.inDegree s = 0 := by
    rw [foldlM_inDegree_frame (pageShas (l1 ++ c :: l2)) s l2 st2 st h3 hne2]
    exact hdeg2
  obtain ⟨hattrs, _⟩ := foldlM_attrs_frame (pageShas (l1 ++ c :: l2)) s l2
    st2 st h3 hne2 hmem2
  refine ⟨hdeg3, fun hp => ?_⟩
  rw [hattrs, hinit]
  cases hpl : c.parents with
  | nil => exact absurd hpl hp
  | cons q qs => rfl

/-- Witness for C8 at the page `[c8orphan, c8child]`: `c8orphan`'s only
parent `"outside"` is absent from the page, so its node has in-degree 0
while `is_initial` is `false`. -/
theorem claim_C8_orphan_is_structural_root_witness :
    c8orphan.sha = some "k1" ∧ c8orphan ∈ [c8orphan, c8child]
    ∧ (pageShas [c8orphan, c8child]).Nodup
    ∧ (∀ p ∈ c8orphan.parents, p ∉ pageShas [c8orphan, c8child])
    ∧ buildGraph [c8orphan, c8child] = Except.ok g8
    ∧ (g8.g.inDegree "k1" = 0 ∧
       (¬ c8orphan.parents = [] →
         (alook "k1" g8.attrs).bind (fun a => a.is_initial) = some false)) :=
  ⟨by decide, by decide, by decide, by decide, by rfl,
   claim_C8_orphan_is_structural_root [c8orphan, c8child] g8 c8orphan "k1"
     (by decide) (by decide) (by decide) (by decide) (by rfl)⟩

end TreeSnow
